import Mathlib

/-!
Shallow embedding of the `eip-712-derive` crate (EIP-712 typed-data hashing).

The embedding mirrors the crate's source:
* `src/type_hash.rs` — `encode_type`, `TypeHashBuilder`, `StructTypeBuilder::visit`,
  the memoized `type_hash` and its cache;
* `src/lib.rs` — `encode_data`, `hash_struct`, `encode`, `sign_hash`, `sign_typed`;
* `src/atomic_types.rs` / `src/dynamic_types.rs` — the 32-byte leaf encodings.

Rust `panic!`/`assert!`/`unwrap` failures are modelled as `Except.error`;
keccak-256 and the secp256k1 primitives are external collaborators and enter
as function parameters.  Byte strings are `List Nat`; `TypeId` is a `Nat`
label: each leaf type gets a fixed label below 36 and the struct value's
label `tid` is shifted by 36, so distinct Rust types have distinct labels.
-/

namespace EIP712

/-- A member value, as classified by the crate: the atomic types
`Bytes1`..`Bytes32`, `Address`, `U256`, the dynamic type `String`
(content kept as raw bytes), and struct values.  A struct value carries
the `TypeId` label of its concrete Rust type, its `TYPE_NAME`, and its
ordered `(field name, field value)` members as `visit_members` exposes
them. -/
inductive Value where
  | bytesVal (n : Nat) (data : List Nat)
  | addressVal (data : List Nat)
  | u256Val (data : List Nat)
  | strVal (content : List Nat)
  | structVal (tid : Nat) (name : String) (members : List (String × Value))
deriving Repr

/-- `T::TYPE_NAME` of a member value's concrete type. -/
def memberTypeName : Value → String
  | .bytesVal n _ => "bytes" ++ toString n
  | .addressVal _ => "address"
  | .u256Val _ => "uint256"
  | .strVal _ => "string"
  | .structVal _ name _ => name

/-- `TypeId::of::<T>()` of a member value's concrete type, as a `Nat` label.
Leaf types get fixed labels `1..35`; a struct with label `tid` gets
`36 + tid`, so leaf and struct types never collide. -/
def memberTypeId : Value → Nat
  | .bytesVal n _ => n
  | .addressVal _ => 33
  | .u256Val _ => 34
  | .strVal _ => 35
  | .structVal tid _ _ => 36 + tid

/-- A `(type, name)` member entry of `type_hash.rs` (`struct Member`). -/
structure Member where
  type : String
  name : String
deriving Repr, DecidableEq

/-- `Member::write`: `type ‖ " " ‖ name`. -/
def Member.write (m : Member) : String :=
  m.type ++ " " ++ m.name

/-- `struct EncodedType { type_id, name, members }`. -/
structure EncodedType where
  type_id : Nat
  name : String
  members : List Member
deriving Repr, DecidableEq

/-- `struct TypeHashBuilder { outer, inner }`.  The `BTreeMap` `inner` is an
association list kept sorted in strictly ascending key order. -/
structure TypeHashBuilder where
  outer : Option EncodedType
  inner : List (String × EncodedType)
deriving Repr, DecidableEq

/-- Lookup in the `inner` map. -/
def lookupET : List (String × EncodedType) → String → Option EncodedType
  | [], _ => none
  | (k, v) :: rest, n => if k = n then some v else lookupET rest n

/-- Lexicographic comparison of character lists by code point.  On UTF-8
strings, code-point order coincides with the byte order the Rust `BTreeMap`
uses to compare `&str` keys (UTF-8 is order-preserving). -/
def charListLt : List Char → List Char → Bool
  | [], [] => false
  | [], _ :: _ => true
  | _ :: _, [] => false
  | a :: as, b :: bs =>
    if a.toNat < b.toNat then true
    else if b.toNat < a.toNat then false
    else charListLt as bs

/-- The `Ord` on `&'static str` keys of the `BTreeMap`: ascending
lexicographic byte order. -/
def strLt (a b : String) : Bool :=
  charListLt a.data b.data

/-- `BTreeMap::insert`, keeping keys strictly ascending (replacing an equal
key, as the Rust map would). -/
def insertET : List (String × EncodedType) → String → EncodedType → List (String × EncodedType)
  | [], k, v => [(k, v)]
  | (k', v') :: rest, k, v =>
    if strLt k k' then (k, v) :: (k', v') :: rest
    else if k = k' then (k, v) :: rest
    else (k', v') :: insertET rest k v

/-- `TypeHashBuilder::get_encoded_type_mut` (read side): check the outer
slot first, then the inner map. -/
def getEncodedType (b : TypeHashBuilder) (name : String) : Option EncodedType :=
  match b.outer with
  | some o => if o.name = name then some o else lookupET b.inner name
  | none => lookupET b.inner name

/-- The inner-map part of the write side of `get_encoded_type_mut`: push
the member `m` onto the entry stored under the key `ownName`, if any. -/
def pushInto (ownName : String) (m : Member) (p : String × EncodedType) :
    String × EncodedType :=
  if p.1 = ownName then (p.1, { p.2 with members := p.2.members ++ [m] }) else p

/-- The write side of `get_encoded_type_mut`: push one member onto the
record registered under `ownName` (outer slot first, then inner map). -/
def pushMember (b : TypeHashBuilder) (ownName : String) (m : Member) : TypeHashBuilder :=
  match b.outer with
  | some o =>
    if o.name = ownName then
      { b with outer := some { o with members := o.members ++ [m] } }
    else
      { b with inner := b.inner.map (pushInto ownName m) }
  | none =>
    { b with inner := b.inner.map (pushInto ownName m) }

/-- The placeholder insertion of `TypeHashBuilder::struct_type`: store the
fresh empty record in the outer slot if it is empty, else in the inner
map.  "Insert at this point as a marker to prevent recursion." -/
def registerType (b : TypeHashBuilder) (name : String) (et : EncodedType) :
    TypeHashBuilder :=
  match b.outer with
  | none => { b with outer := some et }
  | some _ => { b with inner := insertET b.inner name et }

mutual

/-- `visit_members`: feed each `(field name, field value)` pair, in
declaration order, to `StructTypeBuilder::visit`. -/
def visitFields (ownName : String) : List (String × Value) → TypeHashBuilder →
    Except String TypeHashBuilder
  | [], b => .ok b
  | (fname, v) :: rest, b =>
    match visitOne ownName fname v b with
    | .error e => .error e
    | .ok b' => visitFields ownName rest b'
termination_by structural fields => fields

/-- `StructTypeBuilder::visit`: append `(T::TYPE_NAME, name)` to the owner's
member list; then, if the member's type name is already registered, assert
the registered `type_id` matches and stop, else recurse into the member's
own `add_members` — a no-op for atomic and dynamic values; for a struct
value this is `struct_type::<T>()` (assert the name unregistered, insert the
placeholder record — outer if the outer slot is empty, else inner) followed
by `visit_members` on its fields (`types.rs`, inlined here so the recursion
is structural; `addMembersStruct` below restates it). -/
def visitOne (ownName fname : String) : Value → TypeHashBuilder →
    Except String TypeHashBuilder
  | v, b =>
    if (getEncodedType b ownName).isNone then
      .error "called Option::unwrap() on a None value"
    else
      let b' := pushMember b ownName { type := memberTypeName v, name := fname }
      match getEncodedType b' (memberTypeName v) with
      | some et =>
        if et.type_id = memberTypeId v then .ok b'
        else .error ("Types with duplicated name: " ++ memberTypeName v)
      | none =>
        match v with
        | .structVal tid name fields =>
          if (getEncodedType b' name).isSome then
            .error "assertion failed: get_encoded_type_mut(TYPE_NAME).is_none()"
          else
            visitFields name fields
              (registerType b' name { type_id := 36 + tid, name := name, members := [] })
        | _ => .ok b'
termination_by structural v => v

end

/-- `<T as MemberType>::add_members` for a struct type (`types.rs`):
`struct_type::<T>()` (assert the name is unregistered, insert the
placeholder record — outer if the outer slot is empty, else inner) and
then visit the fields. -/
def addMembersStruct (tid : Nat) (name : String) (fields : List (String × Value))
    (b : TypeHashBuilder) : Except String TypeHashBuilder :=
  if (getEncodedType b name).isSome then
    .error "assertion failed: get_encoded_type_mut(TYPE_NAME).is_none()"
  else
    visitFields name fields
      (registerType b name { type_id := 36 + tid, name := name, members := [] })

/-- `encode_type::add_type`: `name ‖ "(" ‖ member₁ ‖ "," ‖ … ‖ ")"`. -/
def addType (t : EncodedType) : String :=
  t.name ++ "(" ++ String.intercalate "," (t.members.map Member.write) ++ ")"

/-- Run the builder for a root struct value and extract the outer record and
the inner records in `BTreeMap` (ascending key) order, performing the
`outer.unwrap()` and the `outer.name == T::TYPE_NAME` assertion of
`encode_type`. -/
def typeBlocks (tid : Nat) (name : String) (fields : List (String × Value)) :
    Except String (EncodedType × List EncodedType) :=
  match addMembersStruct tid name fields { outer := none, inner := [] } with
  | .error e => .error e
  | .ok b =>
    match b.outer with
    | none => .error "called Option::unwrap() on a None value"
    | some outer =>
      if outer.name = name then .ok (outer, b.inner.map Prod.snd)
      else .error "assertion failed: outer.name == T::TYPE_NAME"

/-- `encode_type`: render the outer type block first, then every inner block
in ascending name order, concatenated with no delimiter. -/
def encode_type (tid : Nat) (name : String) (fields : List (String × Value)) :
    Except String String :=
  match typeBlocks tid name fields with
  | .error e => .error e
  | .ok (outer, inners) => .ok (addType outer ++ String.join (inners.map addType))

/-- The UTF-8 bytes of a string (the hash pre-image `encoded.as_bytes()`). -/
def strBytes (s : String) : List Nat :=
  s.toUTF8.toList.map (fun b => b.toNat)

/-- `type_hash` without the memoization layer:
`keccak256(encode_type(typeOf(s)))`. -/
def type_hash (keccak : List Nat → List Nat) (tid : Nat) (name : String)
    (fields : List (String × Value)) : Except String (List Nat) :=
  match encode_type tid name fields with
  | .error e => .error e
  | .ok s => .ok (keccak (strBytes s))

/-- The process-wide `CACHE`, a map from `TypeId` label to 32-byte hash. -/
def lookupCache : List (Nat × List Nat) → Nat → Option (List Nat)
  | [], _ => none
  | (k, v) :: rest, n => if k = n then some v else lookupCache rest n

/-- Memoized `type_hash`: return the cached hash for the type's `TypeId` if
present; otherwise compute `keccak256(encode_type(..))`, insert it, and
return it together with the updated cache. -/
def type_hash_cached (keccak : List Nat → List Nat) (cache : List (Nat × List Nat))
    (tid : Nat) (name : String) (fields : List (String × Value)) :
    Except String (List Nat × List (Nat × List Nat)) :=
  match lookupCache cache (36 + tid) with
  | some h => .ok (h, cache)
  | none =>
    match encode_type tid name fields with
    | .error e => .error e
    | .ok s =>
      let h := keccak (strBytes s)
      .ok (h, cache ++ [(36 + tid, h)])

/-- `impl_bytes!` leaf encoding (`atomic_types.rs`): a 32-byte buffer with
the `n` value bytes copied into the low-order (rightmost) positions,
`padded[32 - n ..] = data`, high-order bytes zero. -/
def encodeBytesN (n : Nat) (data : List Nat) : List Nat :=
  List.replicate (32 - n) 0 ++ data

mutual

/-- The `EncodeVisitor` loop of `encode_data` (`lib.rs`): extend the buffer
with `value.encode_data()` for each field, in declaration order. -/
def encodeFields (keccak : List Nat → List Nat) : List (String × Value) →
    Except String (List Nat)
  | [] => .ok []
  | (_, v) :: rest =>
    match memberEncode keccak v with
    | .error e => .error e
    | .ok e =>
      match encodeFields keccak rest with
      | .error e' => .error e'
      | .ok r => .ok (e ++ r)
termination_by structural fields => fields

/-- `<T as MemberType>::encode_data`: `Bytes1..Bytes32` right-align into 32
bytes; `Address`/`U256` delegate to their inner byte array; `String` hashes
its content; a struct value contributes `crate::hash_struct(self)` =
`keccak256(type_hash(s) ‖ encodeData of each field)` (`types.rs` /
`lib.rs`, inlined here so the recursion is structural; `encodeDataStruct`
and `hash_struct` below restate it). -/
def memberEncode (keccak : List Nat → List Nat) : Value →
    Except String (List Nat)
  | .bytesVal n d => .ok (encodeBytesN n d)
  | .addressVal d => .ok (encodeBytesN 20 d)
  | .u256Val d => .ok (encodeBytesN 32 d)
  | .strVal c => .ok (keccak c)
  | .structVal tid name fields =>
    match type_hash keccak tid name fields with
    | .error e => .error e
    | .ok th =>
      match encodeFields keccak fields with
      | .error e => .error e
      | .ok body => .ok (keccak (th ++ body))
termination_by structural v => v

end

/-- `encode_data` (`lib.rs`): `type_hash(s)` followed by each field's
`encode_data()` output, in declaration order. -/
def encodeDataStruct (keccak : List Nat → List Nat) (tid : Nat) (name : String)
    (fields : List (String × Value)) : Except String (List Nat) :=
  match type_hash keccak tid name fields with
  | .error e => .error e
  | .ok th =>
    match encodeFields keccak fields with
    | .error e => .error e
    | .ok body => .ok (th ++ body)

/-- `hash_struct(s) = keccak256(encode_data(s))` (`lib.rs`). -/
def hash_struct (keccak : List Nat → List Nat) (tid : Nat) (name : String)
    (fields : List (String × Value)) : Except String (List Nat) :=
  match encodeDataStruct keccak tid name fields with
  | .error e => .error e
  | .ok buf => .ok (keccak buf)

/-- `encode(domain_separator, message) = "\x19\x01" ‖ domainSeparator ‖
hashStruct(message)`, written into a 66-byte buffer (`lib.rs`). -/
def encode (keccak : List Nat → List Nat) (domain_separator : List Nat)
    (tid : Nat) (name : String) (fields : List (String × Value)) :
    Except String (List Nat) :=
  match hash_struct keccak tid name fields with
  | .error e => .error e
  | .ok h => .ok ([0x19, 0x01] ++ domain_separator ++ h)

/-- `sign_hash = keccak256(encode(domain_separator, message))` (`lib.rs`). -/
def sign_hash (keccak : List Nat → List Nat) (domain_separator : List Nat)
    (tid : Nat) (name : String) (fields : List (String × Value)) :
    Except String (List Nat) :=
  match encode keccak domain_separator tid name fields with
  | .error e => .error e
  | .ok data => .ok (keccak data)

/-- Big-endian interpretation of a byte string, used to state validity of a
32-byte private scalar. -/
def bytesToNat : List Nat → Nat
  | [] => 0
  | b :: rest => b * 256 ^ rest.length + bytesToNat rest

/-- The order of the secp256k1 group: a private scalar is valid iff it is
nonzero and below this bound. -/
def secpOrder : Nat :=
  115792089237316195423570985008687907852837564279074904382605163141518161494337

/-- A private scalar the curve accepts: nonzero and below the group order. -/
def validScalar (key : List Nat) : Prop :=
  bytesToNat key ≠ 0 ∧ bytesToNat key < secpOrder

/-- `sign_typed` (`lib.rs`): hash the message with `sign_hash`, parse the
private scalar with the external `SecretKey::parse` (parameter `parseSK`),
sign with the external curve primitive (parameter `signP`, returning the
serialized 64-byte signature and the raw recovery id), and return the
signature with the recovery id offset by 27.  A parse failure is returned
as-is, with no signature. -/
def sign_typed {K : Type} (keccak : List Nat → List Nat)
    (parseSK : List Nat → Except String K)
    (signP : List Nat → K → List Nat × Nat)
    (domain_separator : List Nat) (tid : Nat) (name : String)
    (fields : List (String × Value)) (key : List Nat) :
    Except String (List Nat × Nat) :=
  match sign_hash keccak domain_separator tid name fields with
  | .error e => .error e
  | .ok msg =>
    match parseSK key with
    | .error e => .error e
    | .ok sk =>
      let sr := signP msg sk
      .ok (sr.1, sr.2 + 27)

/-! ### Auxiliary definitions for the statements -/

mutual

/-- The schema (concrete Rust type) of a value: erase all leaf data, keep
type labels, type names and field names.  Two Rust values of the same
concrete `StructType` have the same schema. -/
def schemaOf : Value → Value
  | .bytesVal n _ => .bytesVal n []
  | .addressVal _ => .addressVal []
  | .u256Val _ => .u256Val []
  | .strVal _ => .strVal []
  | .structVal tid name fields => .structVal tid name (schemaFields fields)
termination_by structural v => v

/-- `schemaOf` applied to each field value. -/
def schemaFields : List (String × Value) → List (String × Value)
  | [] => []
  | (f, v) :: rest => (f, schemaOf v) :: schemaFields rest
termination_by structural fields => fields

end

/-- Well-formedness of a builder state: the inner map's keys are strictly
ascending, each inner record is stored under its own name, and the outer
record's name is not an inner key. -/
def builderWF (b : TypeHashBuilder) : Prop :=
  (b.inner.map Prod.fst).Pairwise (fun a b => strLt a b = true)
  ∧ b.inner.map (fun p => p.2.name) = b.inner.map Prod.fst
  ∧ ∀ nm ∈ b.outer.map EncodedType.name, nm ∉ b.inner.map Prod.fst

/-- Fields of a root struct type `A` whose type graph is mutually recursive:
`A` has a field of type `B`, and `B` has a field of type `A`.  The builder
registers `A` before traversing its fields, so when `B`'s field of type `A`
is visited, `A` is already registered and is not re-traversed; the value
tree therefore bottoms out at that point. -/
def recFieldsA : List (String × Value) :=
  [("b", Value.structVal 11 "B" [("a", Value.structVal 10 "A" [])])]

/-- Fields of a root struct whose graph reaches two distinct concrete types
(labels 21 and 22) that both declare the type name `"Dup"`. -/
def dupFields : List (String × Value) :=
  [("x", Value.structVal 21 "Dup" []), ("y", Value.structVal 22 "Dup" [])]

/-- A stand-in for the external keccak-256 collaborator, used to instantiate
theorems at concrete inputs: it has the collaborator's contract shape
(arbitrary byte sequence in, 32 bytes out). -/
def constHash (out : Nat) : List Nat → List Nat :=
  fun _ => List.replicate 32 out

/-- Fields of the `Transaction` root struct of the crate's own test
(`type_hash.rs`): two `Person` fields and one `Asset` field. -/
def txFields : List (String × Value) :=
  [("from", Value.structVal 1 "Person" [("wallet", .addressVal []), ("name", .strVal [])]),
   ("to", Value.structVal 1 "Person" [("wallet", .addressVal []), ("name", .strVal [])]),
   ("tx", Value.structVal 2 "Asset" [("token", .addressVal []), ("amount", .u256Val [])])]

/-- The outer block the builder computes for the `Transaction` example. -/
def txOuterBlock : EncodedType :=
  { type_id := 39, name := "Transaction",
    members := [{ type := "Person", name := "from" },
                { type := "Person", name := "to" },
                { type := "Asset", name := "tx" }] }

/-- The `Asset` inner block of the `Transaction` example. -/
def txAssetBlock : EncodedType :=
  { type_id := 38, name := "Asset",
    members := [{ type := "address", name := "token" },
                { type := "uint256", name := "amount" }] }

/-- The `Person` inner block of the `Transaction` example. -/
def txPersonBlock : EncodedType :=
  { type_id := 37, name := "Person",
    members := [{ type := "address", name := "wallet" },
                { type := "string", name := "name" }] }

/-! ### Helper lemmas about the builder state -/

theorem lookupET_eq_none_iff (l : List (String × EncodedType)) (n : String) :
    lookupET l n = none ↔ n ∉ l.map Prod.fst := by
  induction l with
  | nil => simp [lookupET]
  | cons p rest ih =>
    obtain ⟨k, v⟩ := p
    by_cases hk : k = n
    · subst hk
      simp [lookupET]
    · simp [lookupET, hk, ih, Ne.symm hk]

theorem charToNat_inj {a b : Char} (h : a.toNat = b.toNat) : a = b := by
  apply Char.ext
  apply UInt32.ext
  exact h

theorem charListLt_trans (a : List Char) : ∀ b c, charListLt a b = true →
    charListLt b c = true → charListLt a c = true := by
  induction a with
  | nil =>
    intro b c hab hbc
    cases c with
    | nil =>
      cases b with
      | nil => simp [charListLt] at hab
      | cons y ys => simp [charListLt] at hbc
    | cons z zs => simp [charListLt]
  | cons x xs ih =>
    intro b c hab hbc
    cases b with
    | nil => simp [charListLt] at hab
    | cons y ys =>
      cases c with
      | nil => simp [charListLt] at hbc
      | cons z zs =>
        simp only [charListLt] at hab hbc ⊢
        by_cases hxy : x.toNat < y.toNat
        · by_cases hyz : y.toNat < z.toNat
          · rw [if_pos (by omega)]
          · by_cases hzy : z.toNat < y.toNat
            · rw [if_neg hyz, if_pos hzy] at hbc
              cases hbc
            · rw [if_pos (by omega)]
        · by_cases hyx : y.toNat < x.toNat
          · rw [if_neg hxy, if_pos hyx] at hab
            cases hab
          · by_cases hyz : y.toNat < z.toNat
            · rw [if_pos (by omega)]
            · by_cases hzy : z.toNat < y.toNat
              · rw [if_neg hyz, if_pos hzy] at hbc
                cases hbc
              · rw [if_neg (by omega), if_neg (by omega)]
                rw [if_neg hxy, if_neg hyx] at hab
                rw [if_neg hyz, if_neg hzy] at hbc
                exact ih ys zs hab hbc

theorem charListLt_total (a : List Char) : ∀ b, charListLt a b = false →
    a ≠ b → charListLt b a = true := by
  induction a with
  | nil =>
    intro b hab hne
    cases b with
    | nil => exact absurd rfl hne
    | cons y ys => simp [charListLt] at hab
  | cons x xs ih =>
    intro b hab hne
    cases b with
    | nil => simp [charListLt]
    | cons y ys =>
      simp only [charListLt] at hab ⊢
      by_cases hxy : x.toNat < y.toNat
      · rw [if_pos hxy] at hab
        cases hab
      · by_cases hyx : y.toNat < x.toNat
        · rw [if_pos hyx]
        · rw [if_neg hxy, if_neg hyx] at hab
          rw [if_neg hyx, if_neg hxy]
          have hxyeq : x = y := charToNat_inj (by omega)
          refine ih ys hab ?_
          intro h
          exact hne (by rw [hxyeq, h])

theorem strLt_trans (a b c : String) (hab : strLt a b = true)
    (hbc : strLt b c = true) : strLt a c = true :=
  charListLt_trans a.data b.data c.data hab hbc

theorem strLt_total (a b : String) (hab : strLt a b = false) (hne : a ≠ b) :
    strLt b a = true := by
  refine charListLt_total a.data b.data hab ?_
  intro h
  exact hne (by apply String.ext; exact h)

theorem charListLt_irrefl (l : List Char) : charListLt l l = false := by
  induction l with
  | nil => rfl
  | cons x xs ih =>
    simp only [charListLt]
    rw [if_neg (by omega), if_neg (by omega)]
    exact ih

theorem strLt_ne (a b : String) (h : strLt a b = true) : a ≠ b := by
  intro hEq
  rw [hEq] at h
  rw [show strLt b b = charListLt b.data b.data from rfl, charListLt_irrefl] at h
  cases h

theorem insertET_keys_mem (l : List (String × EncodedType)) (k : String)
    (v : EncodedType) (a : String) (ha : a ∈ (insertET l k v).map Prod.fst) :
    a = k ∨ a ∈ l.map Prod.fst := by
  induction l with
  | nil =>
    simp [insertET] at ha
    exact Or.inl ha
  | cons p rest ih =>
    obtain ⟨k', v'⟩ := p
    by_cases hlt : strLt k k' = true
    · simp only [insertET, if_pos hlt, List.map_cons, List.mem_cons] at ha
      rcases ha with h | h | h
      · exact Or.inl h
      · exact Or.inr (by simp [h])
      · exact Or.inr (by simp [h])
    · by_cases heq : k = k'
      · simp only [insertET, if_neg hlt, if_pos heq, List.map_cons, List.mem_cons] at ha
        rcases ha with h | h
        · exact Or.inl h
        · exact Or.inr (by simp [h])
      · simp only [insertET, if_neg hlt, if_neg heq, List.map_cons, List.mem_cons] at ha
        rcases ha with h | h
        · exact Or.inr (by simp [h])
        · rcases ih h with h' | h'
          · exact Or.inl h'
          · exact Or.inr (by simp [h'])

theorem insertET_sorted (k : String) (v : EncodedType) (l : List (String × EncodedType))
    (h : (l.map Prod.fst).Pairwise (fun a b => strLt a b = true)) :
    ((insertET l k v).map Prod.fst).Pairwise (fun a b => strLt a b = true) := by
  induction l with
  | nil => simp [insertET]
  | cons p rest ih =>
    obtain ⟨k', v'⟩ := p
    simp only [List.map_cons, List.pairwise_cons] at h
    obtain ⟨h1, h2⟩ := h
    by_cases hlt : strLt k k' = true
    · simp only [insertET, if_pos hlt, List.map_cons, List.pairwise_cons]
      refine ⟨?_, ?_⟩
      · intro a ha
        rcases List.mem_cons.mp ha with rfl | ha'
        · exact hlt
        · exact strLt_trans k k' a hlt (h1 a ha')
      · exact ⟨h1, h2⟩
    · by_cases heq : k = k'
      · simp only [insertET, if_neg hlt, if_pos heq, List.map_cons, List.pairwise_cons]
        refine ⟨?_, h2⟩
        intro a ha
        rw [heq]
        exact h1 a ha
      · have hk' : strLt k' k = true :=
          strLt_total k k' (by simpa using hlt) heq
        simp only [insertET, if_neg hlt, if_neg heq, List.map_cons, List.pairwise_cons]
        refine ⟨?_, ih h2⟩
        intro a ha
        rcases insertET_keys_mem rest k v a ha with rfl | ha'
        · exact hk'
        · exact h1 a ha'

theorem insertET_names (k : String) (v : EncodedType) (hv : v.name = k)
    (l : List (String × EncodedType))
    (h : l.map (fun p => p.2.name) = l.map Prod.fst) :
    (insertET l k v).map (fun p => p.2.name) = (insertET l k v).map Prod.fst := by
  induction l with
  | nil => simp [insertET, hv]
  | cons p rest ih =>
    obtain ⟨k', v'⟩ := p
    simp only [List.map_cons, List.cons.injEq] at h
    obtain ⟨h1, h2⟩ := h
    by_cases hlt : strLt k k' = true
    · simp only [insertET, if_pos hlt, List.map_cons, List.cons.injEq]
      exact ⟨hv, h1, h2⟩
    · by_cases heq : k = k'
      · simp only [insertET, if_neg hlt, if_pos heq, List.map_cons, List.cons.injEq]
        exact ⟨hv, h2⟩
      · simp only [insertET, if_neg hlt, if_neg heq, List.map_cons, List.cons.injEq]
        exact ⟨h1, ih h2⟩

theorem pushInto_fst (own : String) (m : Member) (p : String × EncodedType) :
    (pushInto own m p).1 = p.1 := by
  unfold pushInto
  split <;> rfl

theorem pushInto_name (own : String) (m : Member) (p : String × EncodedType) :
    (pushInto own m p).2.name = p.2.name := by
  unfold pushInto
  split <;> rfl

theorem pushInto_type_id (own : String) (m : Member) (p : String × EncodedType) :
    (pushInto own m p).2.type_id = p.2.type_id := by
  unfold pushInto
  split <;> rfl

theorem pushMember_inner_keys (b : TypeHashBuilder) (own : String) (m : Member) :
    (pushMember b own m).inner.map Prod.fst = b.inner.map Prod.fst := by
  unfold pushMember
  cases b.outer with
  | none =>
    simp only [List.map_map]
    exact List.map_congr_left fun p _ => pushInto_fst own m p
  | some o =>
    by_cases ho : o.name = own
    · simp [ho]
    · simp only [if_neg ho, List.map_map]
      exact List.map_congr_left fun p _ => pushInto_fst own m p

theorem pushMember_inner_names (b : TypeHashBuilder) (own : String) (m : Member) :
    (pushMember b own m).inner.map (fun p => p.2.name) =
      b.inner.map (fun p => p.2.name) := by
  unfold pushMember
  cases b.outer with
  | none =>
    simp only [List.map_map]
    exact List.map_congr_left fun p _ => pushInto_name own m p
  | some o =>
    by_cases ho : o.name = own
    · simp [ho]
    · simp only [if_neg ho, List.map_map]
      exact List.map_congr_left fun p _ => pushInto_name own m p

theorem pushMember_outer_name (b : TypeHashBuilder) (own : String) (m : Member) :
    (pushMember b own m).outer.map EncodedType.name = b.outer.map EncodedType.name := by
  unfold pushMember
  cases b.outer with
  | none => simp
  | some o =>
    by_cases ho : o.name = own <;> simp [ho]

theorem builderWF_pushMember (b : TypeHashBuilder) (own : String) (m : Member)
    (h : builderWF b) : builderWF (pushMember b own m) := by
  obtain ⟨h1, h2, h3⟩ := h
  refine ⟨?_, ?_, ?_⟩
  · rw [pushMember_inner_keys]; exact h1
  · rw [pushMember_inner_names, pushMember_inner_keys]; exact h2
  · rw [pushMember_outer_name, pushMember_inner_keys]; exact h3

theorem lookupET_cons (k : String) (v : EncodedType)
    (rest : List (String × EncodedType)) (n : String) :
    lookupET ((k, v) :: rest) n = if k = n then some v else lookupET rest n := rfl

theorem lookupET_cons_pair (p : String × EncodedType)
    (rest : List (String × EncodedType)) (n : String) :
    lookupET (p :: rest) n = if p.1 = n then some p.2 else lookupET rest n := by
  obtain ⟨k, v⟩ := p
  exact lookupET_cons k v rest n

theorem lookupET_push_nameId (own : String) (m : Member) (n : String)
    (l : List (String × EncodedType)) :
    (lookupET (l.map (pushInto own m)) n).map (fun et => (et.name, et.type_id)) =
      (lookupET l n).map (fun et => (et.name, et.type_id)) := by
  induction l with
  | nil => simp [lookupET]
  | cons p rest ih =>
    obtain ⟨k, v⟩ := p
    simp only [List.map_cons, lookupET_cons, lookupET_cons_pair, pushInto_fst]
    by_cases hk : k = n
    · simp only [if_pos hk]
      simp [pushInto_name, pushInto_type_id]
    · simp only [if_neg hk]
      exact ih

theorem getEncodedType_pushMember_nameId (b : TypeHashBuilder) (own : String)
    (m : Member) (n : String) :
    (getEncodedType (pushMember b own m) n).map (fun et => (et.name, et.type_id)) =
      (getEncodedType b n).map (fun et => (et.name, et.type_id)) := by
  unfold getEncodedType pushMember
  cases b.outer with
  | none => exact lookupET_push_nameId own m n b.inner
  | some o =>
    by_cases ho : o.name = own
    · simp only [if_pos ho]
      by_cases hn : o.name = n <;> simp [hn]
    · simp only [if_neg ho]
      by_cases hn : o.name = n
      · simp [hn]
      · simp only [if_neg hn]
        exact lookupET_push_nameId own m n b.inner

theorem getEncodedType_pushMember_none (b : TypeHashBuilder) (own : String)
    (m : Member) (n : String) :
    getEncodedType (pushMember b own m) n = none ↔ getEncodedType b n = none := by
  have h := getEncodedType_pushMember_nameId b own m n
  constructor
  · intro hn
    rw [hn] at h
    cases hg : getEncodedType b n with
    | none => rfl
    | some et => rw [hg] at h; simp at h
  · intro hn
    rw [hn] at h
    cases hg : getEncodedType (pushMember b own m) n with
    | none => rfl
    | some et => rw [hg] at h; simp at h

theorem getEncodedType_none_parts (b : TypeHashBuilder) (n : String)
    (h : getEncodedType b n = none) :
    (∀ nm ∈ b.outer.map EncodedType.name, nm ≠ n) ∧ lookupET b.inner n = none := by
  unfold getEncodedType at h
  split at h
  · rename_i o hb
    split at h
    · cases h
    · rename_i ho
      refine ⟨?_, h⟩
      intro nm hnm
      simp [hb] at hnm
      rw [← hnm]
      exact ho
  · rename_i hb
    exact ⟨by simp [hb], h⟩

theorem builderWF_registerType (b : TypeHashBuilder) (name : String)
    (et : EncodedType) (hwf : builderWF b) (hname : et.name = name)
    (hnone : getEncodedType b name = none) :
    builderWF (registerType b name et) := by
  obtain ⟨h1, h2, h3⟩ := hwf
  obtain ⟨ho, hl⟩ := getEncodedType_none_parts b name hnone
  have hkeys : name ∉ b.inner.map Prod.fst := (lookupET_eq_none_iff _ _).mp hl
  unfold registerType
  split
  · refine ⟨h1, h2, ?_⟩
    intro nm hnm
    simp at hnm
    rw [← hnm, hname]
    exact hkeys
  · rename_i o hb
    refine ⟨insertET_sorted name et b.inner h1, insertET_names name et hname b.inner h2, ?_⟩
    intro nm hnm hmem
    rcases insertET_keys_mem b.inner name et nm hmem with rfl | hmem'
    · exact ho nm hnm rfl
    · exact h3 nm hnm hmem'

theorem visit_wf_aux (n : Nat) :
    (∀ ownName fields b b', sizeOf fields ≤ n → builderWF b →
      visitFields ownName fields b = .ok b' → builderWF b')
    ∧ (∀ ownName fname v b b', sizeOf v ≤ n → builderWF b →
      visitOne ownName fname v b = .ok b' → builderWF b') := by
  induction n using Nat.strong_induction_on with
  | _ n ih =>
    constructor
    · intro ownName fields b b' hn hwf h
      cases fields with
      | nil =>
        rw [visitFields] at h
        cases h
        exact hwf
      | cons p rest =>
        obtain ⟨fname, v⟩ := p
        have hsv : sizeOf v < sizeOf ((fname, v) :: rest) := by simp; omega
        have hsr : sizeOf rest < sizeOf ((fname, v) :: rest) := by simp
        rw [visitFields] at h
        cases hv : visitOne ownName fname v b with
        | error e => rw [hv] at h; cases h
        | ok b₁ =>
          rw [hv] at h
          have hwf₁ := (ih (sizeOf v) (by omega)).2 ownName fname v b b₁ (le_refl _) hwf hv
          exact (ih (sizeOf rest) (by omega)).1 ownName rest b₁ b' (le_refl _) hwf₁ h
    · intro ownName fname v b b' hn hwf h
      have hpush : builderWF (pushMember b ownName { type := memberTypeName v, name := fname }) :=
        builderWF_pushMember b ownName _ hwf
      cases v with
      | structVal tid name fields =>
        have hsf : sizeOf fields < sizeOf (Value.structVal tid name fields) := by
          simp
        simp only [visitOne, memberTypeName, memberTypeId] at h hpush
        split at h
        · cases h
        · split at h
          · split at h
            · cases h
              exact hpush
            · cases h
          · split at h
            · cases h
            · rename_i hget hsome
              refine (ih (sizeOf fields) (by omega)).1 name fields _ b' (le_refl _) ?_ h
              refine builderWF_registerType _ name _ hpush rfl ?_
              exact Option.not_isSome_iff_eq_none.mp hsome
      | bytesVal nb d =>
        simp only [visitOne, memberTypeName, memberTypeId] at h hpush
        split at h
        · cases h
        · split at h
          · split at h
            · cases h
              exact hpush
            · cases h
          · cases h
            exact hpush
      | addressVal d =>
        simp only [visitOne, memberTypeName, memberTypeId] at h hpush
        split at h
        · cases h
        · split at h
          · split at h
            · cases h
              exact hpush
            · cases h
          · cases h
            exact hpush
      | u256Val d =>
        simp only [visitOne, memberTypeName, memberTypeId] at h hpush
        split at h
        · cases h
        · split at h
          · split at h
            · cases h
              exact hpush
            · cases h
          · cases h
            exact hpush
      | strVal c =>
        simp only [visitOne, memberTypeName, memberTypeId] at h hpush
        split at h
        · cases h
        · split at h
          · split at h
            · cases h
              exact hpush
            · cases h
          · cases h
            exact hpush

theorem visitFields_wf (ownName : String) (fields : List (String × Value))
    (b b' : TypeHashBuilder) (hwf : builderWF b)
    (h : visitFields ownName fields b = .ok b') : builderWF b' :=
  (visit_wf_aux (sizeOf fields)).1 ownName fields b b' (le_refl _) hwf h

theorem visitOne_wf (ownName fname : String) (v : Value)
    (b b' : TypeHashBuilder) (hwf : builderWF b)
    (h : visitOne ownName fname v b = .ok b') : builderWF b' :=
  (visit_wf_aux (sizeOf v)).2 ownName fname v b b' (le_refl _) hwf h

theorem addMembersStruct_wf (tid : Nat) (name : String)
    (fields : List (String × Value)) (b b' : TypeHashBuilder) (hwf : builderWF b)
    (h : addMembersStruct tid name fields b = .ok b') : builderWF b' := by
  unfold addMembersStruct at h
  split at h
  · cases h
  · rename_i hsome
    refine visitFields_wf name fields _ b' ?_ h
    exact builderWF_registerType b name _ hwf rfl (Option.not_isSome_iff_eq_none.mp hsome)

theorem builderWF_empty : builderWF { outer := none, inner := [] } := by
  refine ⟨by simp, by simp, by simp⟩

theorem memberTypeName_schemaOf (v : Value) :
    memberTypeName (schemaOf v) = memberTypeName v := by
  cases v <;> rfl

theorem memberTypeId_schemaOf (v : Value) :
    memberTypeId (schemaOf v) = memberTypeId v := by
  cases v <;> rfl

theorem visit_schema_aux (n : Nat) :
    (∀ ownName fields b, sizeOf fields ≤ n →
      visitFields ownName (schemaFields fields) b = visitFields ownName fields b)
    ∧ (∀ ownName fname v b, sizeOf v ≤ n →
      visitOne ownName fname (schemaOf v) b = visitOne ownName fname v b) := by
  induction n using Nat.strong_induction_on with
  | _ n ih =>
    constructor
    · intro ownName fields b hn
      cases fields with
      | nil => rfl
      | cons p rest =>
        obtain ⟨fname, v⟩ := p
        have hsv : sizeOf v < sizeOf ((fname, v) :: rest) := by simp; omega
        have hsr : sizeOf rest < sizeOf ((fname, v) :: rest) := by simp
        rw [show schemaFields ((fname, v) :: rest)
            = (fname, schemaOf v) :: schemaFields rest from rfl]
        rw [visitFields, visitFields,
          (ih (sizeOf v) (by omega)).2 ownName fname v b (le_refl _)]
        cases hv : visitOne ownName fname v b with
        | error e => rfl
        | ok b₁ => exact (ih (sizeOf rest) (by omega)).1 ownName rest b₁ (le_refl _)
    · intro ownName fname v b hn
      cases v with
      | structVal tid name fields =>
        have hsf : sizeOf fields < sizeOf (Value.structVal tid name fields) := by simp
        rw [show schemaOf (Value.structVal tid name fields)
            = Value.structVal tid name (schemaFields fields) from rfl]
        simp only [visitOne, memberTypeName, memberTypeId]
        cases hown : (getEncodedType b ownName).isNone with
        | true => simp
        | false =>
          simp only [Bool.false_eq_true, if_false]
          cases hget : getEncodedType
              (pushMember b ownName { type := name, name := fname }) name with
          | some et => simp [hget]
          | none =>
            simp only [hget]
            cases hsome : (getEncodedType
                (pushMember b ownName { type := name, name := fname }) name).isSome with
            | true => rw [hget] at hsome; simp at hsome
            | false =>
              simp only [hget, Option.isSome_none, Bool.false_eq_true, if_false]
              exact (ih (sizeOf fields) (by omega)).1 name fields _ (le_refl _)
      | bytesVal nb d => rfl
      | addressVal d => rfl
      | u256Val d => rfl
      | strVal c => rfl

theorem addMembersStruct_schema (tid : Nat) (name : String)
    (fields : List (String × Value)) (b : TypeHashBuilder) :
    addMembersStruct tid name (schemaFields fields) b
      = addMembersStruct tid name fields b := by
  unfold addMembersStruct
  split
  · rfl
  · exact (visit_schema_aux (sizeOf fields)).1 name fields _ (le_refl _)

theorem encode_type_schema (tid : Nat) (name : String)
    (fields : List (String × Value)) :
    encode_type tid name (schemaFields fields) = encode_type tid name fields := by
  unfold encode_type typeBlocks
  rw [addMembersStruct_schema]

theorem type_hash_schema (keccak : List Nat → List Nat) (tid : Nat) (name : String)
    (fields : List (String × Value)) :
    type_hash keccak tid name (schemaFields fields) = type_hash keccak tid name fields := by
  unfold type_hash
  rw [encode_type_schema]

theorem lookupCache_append_self (cache : List (Nat × List Nat)) (k : Nat) (h : List Nat)
    (hmiss : lookupCache cache k = none) :
    lookupCache (cache ++ [(k, h)]) k = some h := by
  induction cache with
  | nil => simp [lookupCache]
  | cons p rest ih =>
    obtain ⟨k', v'⟩ := p
    by_cases hk : k' = k
    · rw [show lookupCache ((k', v') :: rest) k
          = if k' = k then some v' else lookupCache rest k from rfl, if_pos hk] at hmiss
      cases hmiss
    · rw [show lookupCache ((k', v') :: rest) k
          = if k' = k then some v' else lookupCache rest k from rfl, if_neg hk] at hmiss
      rw [show ((k', v') :: rest) ++ [(k, h)] = (k', v') :: (rest ++ [(k, h)]) from rfl]
      rw [show lookupCache ((k', v') :: (rest ++ [(k, h)])) k
          = if k' = k then some v' else lookupCache (rest ++ [(k, h)]) k from rfl, if_neg hk]
      exact ih hmiss

theorem encodeFields_of_forall2 (keccak : List Nat → List Nat)
    (fields : List (String × Value)) (encs : List (List Nat))
    (h : List.Forall₂ (fun p e => memberEncode keccak p.2 = .ok e) fields encs) :
    encodeFields keccak fields = .ok encs.flatten := by
  induction h with
  | nil => rfl
  | cons hpe hrest ih =>
    rename_i p e ps es
    rw [show ((p :: ps : List (String × Value))) = (p.1, p.2) :: ps from by rfl]
    rw [encodeFields, show (p.1, p.2).2 = p.2 from rfl, hpe, ih]
    simp

theorem memberEncode_structVal (keccak : List Nat → List Nat) (tid : Nat)
    (name : String) (fields : List (String × Value)) :
    memberEncode keccak (.structVal tid name fields)
      = hash_struct keccak tid name fields := by
  simp only [memberEncode, hash_struct, encodeDataStruct]
  cases ht : type_hash keccak tid name fields with
  | error e => rfl
  | ok th =>
    cases hf : encodeFields keccak fields with
    | error e => rfl
    | ok body => rfl

theorem typeBlocks_ok_props (tid : Nat) (name : String)
    (fields : List (String × Value)) (outer : EncodedType)
    (inners : List EncodedType)
    (h : typeBlocks tid name fields = .ok (outer, inners)) :
    outer.name = name
    ∧ (inners.map EncodedType.name).Pairwise (fun a b => strLt a b = true)
    ∧ name ∉ inners.map EncodedType.name := by
  unfold typeBlocks at h
  split at h
  · cases h
  · rename_i b hadd
    split at h
    · cases h
    · rename_i o hb
      split at h
      · rename_i hname
        cases h
        obtain ⟨h1, h2, h3⟩ := addMembersStruct_wf tid name fields _ b builderWF_empty hadd
        have hnames : (b.inner.map Prod.snd).map EncodedType.name = b.inner.map Prod.fst := by
          rw [List.map_map]
          exact h2
        refine ⟨hname, ?_, ?_⟩
        · rw [hnames]
          exact h1
        · rw [hnames]
          have ho := h3 outer.name (by simp [hb])
          rw [hname] at ho
          exact ho
      · cases h

theorem hash_struct_ok_is_keccak (keccak : List Nat → List Nat) (tid : Nat)
    (name : String) (fields : List (String × Value)) (h : List Nat)
    (hh : hash_struct keccak tid name fields = .ok h) : ∃ buf, h = keccak buf := by
  unfold hash_struct at hh
  split at hh
  · cases hh
  · rename_i buf hbuf
    cases hh
    exact ⟨buf, rfl⟩

/-! ### The claims -/

/-- C1: for every struct value, `hash_struct` equals keccak-256 of the
concatenation of `type_hash` followed by each field's `encode_data` output
in declaration order; and a struct field contributes its own recursively
computed `hash_struct`, never its raw multi-word `encode_data`. -/
theorem hash_struct_eq_keccak_typeHash_members (keccak : List Nat → List Nat)
    (tid : Nat) (name : String) (fields : List (String × Value))
    (th : List Nat) (encs : List (List Nat))
    (hth : type_hash keccak tid name fields = .ok th)
    (hencs : List.Forall₂ (fun p e => memberEncode keccak p.2 = .ok e) fields encs) :
    hash_struct keccak tid name fields = .ok (keccak (th ++ encs.flatten))
    ∧ ∀ tid' name' fields',
        memberEncode keccak (.structVal tid' name' fields')
          = hash_struct keccak tid' name' fields' := by
  constructor
  · simp only [hash_struct, encodeDataStruct, hth,
      encodeFields_of_forall2 keccak fields encs hencs]
  · intro tid' name' fields'
    exact memberEncode_structVal keccak tid' name' fields'

theorem hash_struct_eq_keccak_typeHash_members_witness :
    hash_struct (constHash 7) 1 "Person" [("name", Value.strVal [3])]
      = .ok (List.replicate 32 7)
    ∧ ∀ tid' name' fields',
        memberEncode (constHash 7) (.structVal tid' name' fields')
          = hash_struct (constHash 7) tid' name' fields' :=
  hash_struct_eq_keccak_typeHash_members (constHash 7) 1 "Person"
    [("name", Value.strVal [3])] (List.replicate 32 7) [List.replicate 32 7]
    rfl (List.Forall₂.cons rfl List.Forall₂.nil)

/-- C2: `encode_type` renders the root type's block first, members in
declaration order separated by commas, followed by the referenced inner
type blocks concatenated with no delimiter, in strictly ascending
lexicographic order of type name; the root never appears among them. -/
theorem encode_type_root_first_sorted_inners (tid : Nat) (name : String)
    (fields : List (String × Value)) (outer : EncodedType)
    (inners : List EncodedType)
    (h : typeBlocks tid name fields = .ok (outer, inners)) :
    encode_type tid name fields = .ok (addType outer ++ String.join (inners.map addType))
    ∧ outer.name = name
    ∧ addType outer
        = name ++ "(" ++ String.intercalate "," (outer.members.map Member.write) ++ ")"
    ∧ (inners.map EncodedType.name).Pairwise (fun a b => strLt a b = true)
    ∧ name ∉ inners.map EncodedType.name := by
  obtain ⟨hname, hsorted, hnotin⟩ := typeBlocks_ok_props tid name fields outer inners h
  refine ⟨?_, hname, ?_, hsorted, hnotin⟩
  · unfold encode_type
    rw [h]
  · unfold addType
    rw [hname]

theorem encode_type_root_first_sorted_inners_witness :
    encode_type 3 "Transaction" txFields
      = .ok (addType txOuterBlock ++ String.join ([txAssetBlock, txPersonBlock].map addType))
    ∧ txOuterBlock.name = "Transaction"
    ∧ addType txOuterBlock
        = "Transaction" ++ "(" ++ String.intercalate "," (txOuterBlock.members.map Member.write) ++ ")"
    ∧ ([txAssetBlock, txPersonBlock].map EncodedType.name).Pairwise (fun a b => strLt a b = true)
    ∧ "Transaction" ∉ [txAssetBlock, txPersonBlock].map EncodedType.name :=
  encode_type_root_first_sorted_inners 3 "Transaction" txFields txOuterBlock
    [txAssetBlock, txPersonBlock] (by rfl)

/-- C3: the builder terminates on self-referential and mutually recursive
type graphs and the canonical string contains a block for each distinct
reachable struct type name exactly once: (i) on success the rendered block
names are pairwise distinct; (ii) a struct member whose type name is
already registered with the matching type identity is never re-traversed —
`visit` returns after only appending the member entry; (iii) the mutually
recursive `A`/`B` graph terminates with each name exactly once. -/
theorem encode_type_terminates_each_name_once :
    (∀ tid name fields outer inners,
      typeBlocks tid name fields = .ok (outer, inners) →
      (outer.name :: inners.map EncodedType.name).Nodup)
    ∧ (∀ ownName fname tid name fields b et,
        (getEncodedType b ownName).isNone = false →
        getEncodedType (pushMember b ownName { type := name, name := fname }) name
          = some et →
        et.type_id = 36 + tid →
        visitOne ownName fname (.structVal tid name fields) b
          = .ok (pushMember b ownName { type := name, name := fname }))
    ∧ encode_type 10 "A" recFieldsA = .ok "A(B b)B(A a)" := by
  refine ⟨?_, ?_, rfl⟩
  · intro tid name fields outer inners h
    obtain ⟨hname, hsorted, hnotin⟩ := typeBlocks_ok_props tid name fields outer inners h
    refine List.nodup_cons.mpr ⟨by rw [hname]; exact hnotin, ?_⟩
    exact hsorted.imp (fun hab => strLt_ne _ _ hab)
  · intro ownName fname tid name fields b et hown hreg hid
    simp only [visitOne, memberTypeName, memberTypeId]
    rw [hown]
    simp only [Bool.false_eq_true, if_false, hreg]
    rw [if_pos hid]

theorem encode_type_terminates_each_name_once_witness :
    ((⟨46, "A", [⟨"B", "b"⟩]⟩ : EncodedType).name ::
      ([⟨47, "B", [⟨"A", "a"⟩]⟩] : List EncodedType).map EncodedType.name).Nodup
    ∧ visitOne "C" "x" (.structVal 5 "C" [])
        { outer := some ⟨41, "C", []⟩, inner := [] }
      = .ok (pushMember { outer := some ⟨41, "C", []⟩, inner := [] } "C"
          { type := "C", name := "x" }) :=
  ⟨encode_type_terminates_each_name_once.1 10 "A" recFieldsA
      ⟨46, "A", [⟨"B", "b"⟩]⟩ [⟨47, "B", [⟨"A", "a"⟩]⟩] (by rfl),
   encode_type_terminates_each_name_once.2.1 "C" "x" 5 "C" []
      { outer := some ⟨41, "C", []⟩, inner := [] } ⟨41, "C", [⟨"C", "x"⟩]⟩
      rfl (by rfl) rfl⟩

/-- C4: when a struct member's type name is already registered under a
different concrete type identity, `visit` fails with the
"Types with duplicated name" schema error; an end-to-end pass over a root
whose graph reaches two distinct types both named `Dup` is rejected and no
canonical string is produced. -/
theorem duplicate_type_name_schema_error :
    (∀ ownName fname tid name fields b et,
        (getEncodedType b ownName).isNone = false →
        getEncodedType (pushMember b ownName { type := name, name := fname }) name
          = some et →
        et.type_id ≠ 36 + tid →
        visitOne ownName fname (.structVal tid name fields) b
          = .error ("Types with duplicated name: " ++ name))
    ∧ encode_type 20 "Root" dupFields = .error "Types with duplicated name: Dup"
    ∧ ∀ s, encode_type 20 "Root" dupFields ≠ .ok s := by
  refine ⟨?_, rfl, ?_⟩
  · intro ownName fname tid name fields b et hown hreg hid
    simp only [visitOne, memberTypeName, memberTypeId]
    rw [hown]
    simp only [Bool.false_eq_true, if_false, hreg]
    rw [if_neg hid]
  · intro s hs
    rw [show encode_type 20 "Root" dupFields
        = .error "Types with duplicated name: Dup" from rfl] at hs
    cases hs

theorem duplicate_type_name_schema_error_witness :
    visitOne "C" "x" (.structVal 6 "C" []) { outer := some ⟨50, "C", []⟩, inner := [] }
      = .error ("Types with duplicated name: " ++ "C") :=
  duplicate_type_name_schema_error.1 "C" "x" 6 "C" []
    { outer := some ⟨50, "C", []⟩, inner := [] } ⟨50, "C", [⟨"C", "x"⟩]⟩
    rfl (by rfl) (by decide)

/-- C5: `type_hash` depends only on the concrete type's schema, never on
field values (values with equal schemas hash identically); a cache hit
returns the stored hash and leaves the cache unchanged; a cache miss
appends the computed hash (the cache only grows), after which the entry is
served unchanged forever. -/
theorem type_hash_value_independent_and_cached_once
    (keccak : List Nat → List Nat) (tid : Nat) (name : String)
    (fields fields' : List (String × Value)) (cache : List (Nat × List Nat))
    (h32 : List Nat) (s : String)
    (hschema : schemaFields fields = schemaFields fields') :
    type_hash keccak tid name fields = type_hash keccak tid name fields'
    ∧ (lookupCache cache (36 + tid) = some h32 →
        type_hash_cached keccak cache tid name fields = .ok (h32, cache))
    ∧ (lookupCache cache (36 + tid) = none → encode_type tid name fields = .ok s →
        type_hash_cached keccak cache tid name fields
          = .ok (keccak (strBytes s), cache ++ [(36 + tid, keccak (strBytes s))])
        ∧ type_hash_cached keccak (cache ++ [(36 + tid, keccak (strBytes s))])
            tid name fields
          = .ok (keccak (strBytes s), cache ++ [(36 + tid, keccak (strBytes s))])) := by
  refine ⟨?_, ?_, ?_⟩
  · rw [← type_hash_schema keccak tid name fields, hschema, type_hash_schema]
  · intro hhit
    unfold type_hash_cached
    rw [hhit]
  · intro hmiss henc
    constructor
    · unfold type_hash_cached
      rw [hmiss, henc]
    · unfold type_hash_cached
      rw [lookupCache_append_self cache (36 + tid) (keccak (strBytes s)) hmiss]

theorem type_hash_value_independent_and_cached_once_witness :
    type_hash_cached (constHash 0) [(37, List.replicate 32 5)] 1 "Foo" []
      = .ok (List.replicate 32 5, [(37, List.replicate 32 5)]) :=
  (type_hash_value_independent_and_cached_once (constHash 0) 1 "Foo" [] []
    [(37, List.replicate 32 5)] (List.replicate 32 5) "Foo()" rfl).2.1 rfl

/-- C6: `encode` produces exactly the 66-byte buffer
`0x19 ‖ 0x01 ‖ domain separator ‖ hash_struct(message)` and `sign_hash` is
keccak-256 of that buffer. -/
theorem encode_is_66_byte_prefix_ds_hash (keccak : List Nat → List Nat)
    (ds : List Nat) (tid : Nat) (name : String) (fields : List (String × Value))
    (h : List Nat) (hk : ∀ x, (keccak x).length = 32) (hds : ds.length = 32)
    (hh : hash_struct keccak tid name fields = .ok h) :
    encode keccak ds tid name fields = .ok ([0x19, 0x01] ++ ds ++ h)
    ∧ ([0x19, 0x01] ++ ds ++ h).length = 66
    ∧ ([0x19, 0x01] ++ ds ++ h).take 2 = [0x19, 0x01]
    ∧ (([0x19, 0x01] ++ ds ++ h).drop 2).take 32 = ds
    ∧ ([0x19, 0x01] ++ ds ++ h).drop 34 = h
    ∧ sign_hash keccak ds tid name fields = .ok (keccak ([0x19, 0x01] ++ ds ++ h)) := by
  obtain ⟨buf, hbuf⟩ := hash_struct_ok_is_keccak keccak tid name fields h hh
  have hlen : h.length = 32 := by rw [hbuf]; exact hk buf
  have henc : encode keccak ds tid name fields = .ok ([0x19, 0x01] ++ ds ++ h) := by
    unfold encode
    rw [hh]
  refine ⟨henc, ?_, ?_, ?_, ?_, ?_⟩
  · simp [hds, hlen]
  · rfl
  · show (ds ++ h).take 32 = ds
    exact List.take_left' hds
  · show (ds ++ h).drop 32 = h
    exact List.drop_left' hds
  · unfold sign_hash
    rw [henc]

theorem encode_is_66_byte_prefix_ds_hash_witness :
    encode (constHash 0) (List.replicate 32 1) 1 "Foo" []
      = .ok ([0x19, 0x01] ++ List.replicate 32 1 ++ List.replicate 32 0) :=
  (encode_is_66_byte_prefix_ds_hash (constHash 0) (List.replicate 32 1) 1 "Foo" []
    (List.replicate 32 0) (fun x => by simp [constHash]) (by simp) rfl).1

/-- C7: a fixed-size byte-array atomic of size `n` (`1 ≤ n ≤ 32`) encodes
as exactly 32 bytes: the `32 − n` high-order (leftmost) bytes are zero and
the `n` value bytes occupy the low-order (rightmost) positions. -/
theorem bytesN_encode_right_aligned (n : Nat) (data : List Nat)
    (h1 : 1 ≤ n) (h2 : n ≤ 32) (hlen : data.length = n) :
    (encodeBytesN n data).length = 32
    ∧ (encodeBytesN n data).take (32 - n) = List.replicate (32 - n) 0
    ∧ (encodeBytesN n data).drop (32 - n) = data := by
  unfold encodeBytesN
  refine ⟨?_, ?_, ?_⟩
  · simp [hlen]
    omega
  · exact List.take_left' (by simp)
  · exact List.drop_left' (by simp)

theorem bytesN_encode_right_aligned_witness :
    (encodeBytesN 4 [1, 2, 3, 4]).length = 32
    ∧ (encodeBytesN 4 [1, 2, 3, 4]).take 28 = List.replicate 28 0
    ∧ (encodeBytesN 4 [1, 2, 3, 4]).drop 28 = [1, 2, 3, 4] :=
  bytesN_encode_right_aligned 4 [1, 2, 3, 4] (by decide) (by decide) rfl

/-- C8: `sign_typed` either returns a signing error — in particular when
the private scalar is invalid (zero or out of the curve range) — with no
partial signature, or returns the curve primitive's 64-byte serialized
signature together with its raw recovery id offset by 27. -/
theorem sign_typed_error_or_64_byte_sig_offset_27 {K : Type}
    (keccak : List Nat → List Nat) (parseSK : List Nat → Except String K)
    (signP : List Nat → K → List Nat × Nat) (ds : List Nat) (tid : Nat)
    (name : String) (fields : List (String × Value)) (key msg : List Nat)
    (hsig : ∀ m sk, ((signP m sk).1).length = 64)
    (hparse : ∀ k, ¬ validScalar k → ∃ e, parseSK k = .error e)
    (hmsg : sign_hash keccak ds tid name fields = .ok msg) :
    (¬ validScalar key →
      ∃ e, sign_typed keccak parseSK signP ds tid name fields key = .error e)
    ∧ ∀ sig recid,
        sign_typed keccak parseSK signP ds tid name fields key = .ok (sig, recid) →
        sig.length = 64
        ∧ ∃ sk raw, parseSK key = .ok sk ∧ signP msg sk = (sig, raw)
            ∧ recid = raw + 27 := by
  constructor
  · intro hinv
    obtain ⟨e, he⟩ := hparse key hinv
    refine ⟨e, ?_⟩
    unfold sign_typed
    rw [hmsg, he]
  · intro sig recid hok
    simp only [sign_typed] at hok
    rw [hmsg] at hok
    cases hp : parseSK key with
    | error e => rw [hp] at hok; cases hok
    | ok sk =>
      rw [hp] at hok
      simp only [Except.ok.injEq, Prod.mk.injEq] at hok
      obtain ⟨hs, hr⟩ := hok
      refine ⟨by rw [← hs]; exact hsig msg sk, sk, (signP msg sk).2, rfl, ?_, hr.symm⟩
      rw [← hs]

theorem sign_typed_error_or_64_byte_sig_offset_27_witness :
    ∃ e, sign_typed (constHash 0)
        (fun _ => (.error "invalid private key" : Except String Nat))
        (fun _ _ => (List.replicate 64 0, 0)) (List.replicate 32 1) 1 "Foo" []
        (List.replicate 32 0) = .error e :=
  (sign_typed_error_or_64_byte_sig_offset_27 (constHash 0)
    (fun _ => (.error "invalid private key" : Except String Nat))
    (fun _ _ => (List.replicate 64 0, 0)) (List.replicate 32 1) 1 "Foo" []
    (List.replicate 32 0) (List.replicate 32 0)
    (fun m sk => by simp)
    (fun k _ => ⟨"invalid private key", rfl⟩) rfl).1
    (fun hv => hv.1 (by decide))

/-- C10: a struct type whose member traversal visits zero fields encodes as
exactly the type name followed by `()` with no comma; its `encode_data` is
exactly the 32-byte type hash, and its `hash_struct` is keccak-256 of the
type hash alone. -/
theorem empty_struct_type_encodings (keccak : List Nat → List Nat)
    (tid : Nat) (name : String) :
    encode_type tid name [] = .ok (name ++ "()")
    ∧ encodeDataStruct keccak tid name [] = .ok (keccak (strBytes (name ++ "()")))
    ∧ hash_struct keccak tid name []
        = .ok (keccak (keccak (strBytes (name ++ "()")))) := by
  have hblocks : typeBlocks tid name []
      = .ok ({ type_id := 36 + tid, name := name, members := [] }, []) := by
    unfold typeBlocks addMembersStruct
    simp [getEncodedType, lookupET, registerType, visitFields]
  have henc : encode_type tid name [] = .ok (name ++ "()") := by
    unfold encode_type
    rw [hblocks]
    show Except.ok (addType { type_id := 36 + tid, name := name, members := [] }
        ++ String.join (List.map addType [])) = Except.ok (name ++ "()")
    refine congrArg Except.ok ?_
    unfold addType
    apply String.ext
    simp [String.data_append, String.join, String.intercalate]
  have hth : type_hash keccak tid name [] = .ok (keccak (strBytes (name ++ "()"))) := by
    unfold type_hash
    rw [henc]
  have hed : encodeDataStruct keccak tid name []
      = .ok (keccak (strBytes (name ++ "()"))) := by
    unfold encodeDataStruct
    rw [hth]
    rw [show encodeFields keccak [] = .ok [] from rfl]
    simp
  refine ⟨henc, hed, ?_⟩
  unfold hash_struct
  rw [hed]

end EIP712
